import Mathlib

/-!
Shallow embedding of the `priced-in-gold` browser extension's content-script
pipeline (`src/content.js`) and of the background rate fetcher
(`src/background.js`), with theorems checking the repository's specification
claims against it.

Text is modelled as `List Char`. The nine price regexes, the five exclusion
regexes, `parseUSDAmount`, the overlap resolver, `convertToKAU`,
`formatKAUAmount`, the DOM-fragment rewrite of `processTextNode`, and
`fetchGoldPrice` are each translated directly from the source. Machine
floating point is idealised as `ℚ`; every comparison the claims depend on is
far from any representation boundary.
-/

set_option maxRecDepth 3000

namespace PricedInGold

/-- Characters of a string literal, the text representation used throughout. -/
def chars (s : String) : List Char := s.data

/-- JavaScript regex `\d`: the ASCII digits. -/
def jsDigit (c : Char) : Bool := '0' ≤ c && c ≤ '9'

/-- JavaScript regex `\s` restricted to its ASCII members (space, tab, and
line/page separators); the pages the claims exercise contain only these. -/
def jsSpace (c : Char) : Bool :=
  c = ' ' || c = '\t' || c = '\n' || c = '\r' || c = '\x0b' || c = '\x0c'

/-- JavaScript regex word character (for `\b`): `[A-Za-z0-9_]`. -/
def jsWord (c : Char) : Bool :=
  jsDigit c || ('a' ≤ c && c ≤ 'z') || ('A' ≤ c && c ≤ 'Z') || c = '_'

/-- Length of the maximal run of characters satisfying `p` at the head. -/
def runLen (p : Char → Bool) : List Char → Nat
  | [] => 0
  | c :: cs => if p c then runLen p cs + 1 else 0

/-- Maximal `\d+` run at the head of the text. -/
def digitRun (l : List Char) : Nat := runLen jsDigit l

/-- Maximal `\s*` run at the head of the text. -/
def wsRun (l : List Char) : Nat := runLen jsSpace l

theorem runLen_le_length (p : Char → Bool) (l : List Char) : runLen p l ≤ l.length := by
  induction l with
  | nil => simp [runLen]
  | cons c cs ih =>
    simp only [runLen, List.length_cons]
    split <;> omega

theorem digitRun_le_length (l : List Char) : digitRun l ≤ l.length :=
  runLen_le_length jsDigit l

theorem wsRun_le_length (l : List Char) : wsRun l ≤ l.length :=
  runLen_le_length jsSpace l

/-- Case-insensitive literal match at the head of the text: the regex engine's
matching of a literal word under the `i` flag (`w` is given in lowercase). -/
def matchCI (w : List Char) (l : List Char) : Bool :=
  (l.take w.length).map Char.toLower = w

/-- Case-sensitive literal match at the head of the text (patterns without the
`i` flag). -/
def matchCS (w : List Char) (l : List Char) : Bool :=
  l.take w.length = w

theorem matchCI_length_le {w l : List Char} (h : matchCI w l = true) :
    w.length ≤ l.length := by
  unfold matchCI at h
  have hlen : ((l.take w.length).map Char.toLower).length = w.length := by
    rw [of_decide_eq_true h]
  simp only [List.length_map, List.length_take] at hlen
  omega

theorem matchCS_length_le {w l : List Char} (h : matchCS w l = true) :
    w.length ≤ l.length := by
  unfold matchCS at h
  have hlen : (l.take w.length).length = w.length := by
    rw [of_decide_eq_true h]
  simp only [List.length_take] at hlen
  omega

/-- Scale words of the price-pattern negative lookaheads and of the exclusion
patterns, in the source's alternation order:
`million|billion|trillion|thousand|hundred|k|m|b|t`. -/
def scaleWords : List (List Char) :=
  [chars "million", chars "billion", chars "trillion", chars "thousand",
   chars "hundred", chars "k", chars "m", chars "b", chars "t"]

/-- Single-letter abbreviations `[kmbt]` of exclusion patterns 4 and 5. -/
def kmbtWords : List (List Char) := [chars "k", chars "m", chars "b", chars "t"]

/-- Word boundary `\b` after a word: end of text or a non-word character next. -/
def wordBoundary : List Char → Bool
  | [] => true
  | c :: _ => !jsWord c

/-- Lookahead `(?=\s|$|[^\d])` at the given suffix: end of text or any
non-digit next (whitespace is itself a non-digit, so the alternation collapses). -/
def lookNonDigit : List Char → Bool
  | [] => true
  | c :: _ => !jsDigit c

/-- Matches `\s*(?:million|billion|trillion|thousand|hundred|k|m|b|t)\b` at the
head of the suffix, the body of the price patterns' negative lookahead. `ci`
selects case-insensitive matching: patterns 4-9 carry the `i` flag, patterns
1-3 do not. Scale words start with letters, never whitespace, so only the
maximal `\s*` run can precede a word and no whitespace backtracking arises. -/
def lookScale (ci : Bool) (l : List Char) : Bool :=
  let l1 := l.drop (wsRun l)
  scaleWords.any fun w =>
    (if ci then matchCI w l1 else matchCS w l1) && wordBoundary (l1.drop w.length)

/-- Greedy-first alternatives of `\d{1,3}`: the number of digits taken, longest
first, bounded by the available digit run `r`. -/
def digitChoices (r : Nat) : List Nat :=
  if 3 ≤ r then [3, 2, 1] else if r = 2 then [2, 1] else if r = 1 then [1] else []

/-- Number of `(?:,\d{3})` repetitions the greedy engine takes at the head. -/
def groupsMax : List Char → Nat
  | c :: a :: b :: d :: rest =>
    if c = ',' && jsDigit a && jsDigit b && jsDigit d then groupsMax rest + 1 else 0
  | _ => 0

/-- Matches `\.\d{2}` at the head (two digits required, more may follow). -/
def fracOk2 : List Char → Bool
  | c :: a :: b :: _ => c = '.' && jsDigit a && jsDigit b
  | _ => false

/-- Backtracking alternatives (consumed lengths, in engine preference order) of
the capture `\d{1,3}(?:,\d{3})*(?:\.\d{2})?` at the head of the suffix: digits
taken greedy-first, then group count high-to-low, then fraction before no
fraction. -/
def num1Alts (l : List Char) : List Nat :=
  (digitChoices (digitRun l)).flatMap fun d =>
    (List.range (groupsMax (l.drop d) + 1)).reverse.flatMap fun k =>
      if fracOk2 (l.drop (d + 4 * k)) then [d + 4 * k + 3, d + 4 * k]
      else [d + 4 * k]

/-- Alternatives of the capture `\d+\.\d{2}`: only the maximal digit run can be
followed by the mandatory dot (a shorter split leaves a digit there), so the
engine has at most one viable alternative. -/
def num2Alts (l : List Char) : List Nat :=
  if 1 ≤ digitRun l && fracOk2 (l.drop (digitRun l)) then [digitRun l + 3] else []

/-- Alternatives of the capture `\d+`, longest first: `r, r-1, ..., 1`. -/
def num3Alts (l : List Char) : List Nat :=
  (List.range (digitRun l)).reverse.map (· + 1)

/-- Consumed length of `\$\s*` at the head, if present. -/
def dollarSignLen : List Char → Option Nat
  | c :: rest => if c = '$' then some (1 + wsRun rest) else none
  | [] => none

/-- Consumed length of `USD\s*` (case-insensitive) at the head, if present.
The number that must follow starts with a digit, never whitespace, so only the
maximal `\s*` run is viable. -/
def usdMarkLen (l : List Char) : Option Nat :=
  if matchCI (chars "usd") l then some (3 + wsRun (l.drop 3)) else none

/-- An anchored price regex: at a given suffix it yields the capture
(`match[1]`) and the total consumed length (`match[0].length`), or fails. -/
abbrev Matcher := List Char → Option (List Char × Nat)

/-- Anchored matcher for the six currency-marker-first price patterns
`\$\s*(NUM)(?=\s|$|[^\d])(?!\s*(?:scale)\b)` and their `USD` variants. `alts`
enumerates the backtracking alternatives of NUM; `ci` is the case sensitivity
of the scale words in the negative lookahead. -/
def symbolPattern (pfx : List Char → Option Nat) (alts : List Char → List Nat)
    (ci : Bool) : Matcher := fun l =>
  match pfx l with
  | none => none
  | some p =>
    let rest := l.drop p
    (alts rest).findSome? fun d =>
      let after := rest.drop d
      if lookNonDigit after && !lookScale ci after then
        some (rest.take d, p + d)
      else none

/-- Consumed lengths of `\s*dollars?` (case-insensitive) at the head, greedy
alternative (`dollars`) first. -/
def dollarsTailLens (l : List Char) : List Nat :=
  (if matchCI (chars "dollars") (l.drop (wsRun l)) then [wsRun l + 7] else []) ++
    (if matchCI (chars "dollar") (l.drop (wsRun l)) then [wsRun l + 6] else [])

/-- Anchored matcher for the three suffix price patterns
`(NUM)\s*dollars?(?=\s|$|[^\d])(?!\s*(?:scale)\b)` (source patterns 7-9, all
case-insensitive). -/
def dollarsPattern (alts : List Char → List Nat) : Matcher := fun l =>
  (alts l).findSome? fun d =>
    let rest := l.drop d
    (dollarsTailLens rest).findSome? fun s =>
      let after := rest.drop s
      if lookNonDigit after && !lookScale true after then
        some (l.take d, d + s)
      else none

/-- The nine `pricePatterns` of the content script, in source order. -/
def pricePatterns : List Matcher :=
  [symbolPattern dollarSignLen num1Alts false,
   symbolPattern dollarSignLen num2Alts false,
   symbolPattern dollarSignLen num3Alts false,
   symbolPattern usdMarkLen num1Alts true,
   symbolPattern usdMarkLen num2Alts true,
   symbolPattern usdMarkLen num3Alts true,
   dollarsPattern num1Alts,
   dollarsPattern num2Alts,
   dollarsPattern num3Alts]

theorem groupsMax_mul_le : ∀ l : List Char, 4 * groupsMax l ≤ l.length
  | [] => by simp [groupsMax]
  | [_] => by simp [groupsMax]
  | [_, _] => by simp [groupsMax]
  | [_, _, _] => by simp [groupsMax]
  | c :: a :: b :: d :: rest => by
    have ih := groupsMax_mul_le rest
    have hdef : groupsMax (c :: a :: b :: d :: rest) =
        if (c = ',' && jsDigit a && jsDigit b && jsDigit d) = true
        then groupsMax rest + 1 else 0 := rfl
    rw [hdef]
    simp only [List.length_cons]
    split
    · omega
    · omega

theorem fracOk2_length {l : List Char} (h : fracOk2 l = true) : 3 ≤ l.length := by
  rcases l with _ | ⟨c, _ | ⟨a, _ | ⟨b, rest⟩⟩⟩
  · exact absurd h (by simp [fracOk2])
  · exact absurd h (by simp [fracOk2])
  · exact absurd h (by simp [fracOk2])
  · simp only [List.length_cons]; omega

theorem mem_digitChoices {r d : Nat} (h : d ∈ digitChoices r) :
    1 ≤ d ∧ d ≤ r := by
  unfold digitChoices at h
  split at h
  · next h3 => simp only [List.mem_cons, List.not_mem_nil, or_false] at h; omega
  · split at h
    · next h2 => simp only [List.mem_cons, List.not_mem_nil, or_false] at h; omega
    · split at h
      · next h1 => simp only [List.mem_cons, List.not_mem_nil, or_false] at h; omega
      · exact absurd h (List.not_mem_nil d)

theorem mem_num1Alts {l : List Char} {d : Nat} (h : d ∈ num1Alts l) :
    1 ≤ d ∧ d ≤ l.length := by
  unfold num1Alts at h
  rw [List.mem_flatMap] at h
  obtain ⟨d0, hd0, h⟩ := h
  rw [List.mem_flatMap] at h
  obtain ⟨k, hk, h⟩ := h
  obtain ⟨hd01, hd02⟩ := mem_digitChoices hd0
  have hd0len : d0 ≤ l.length := le_trans hd02 (digitRun_le_length l)
  have hkle : k ≤ groupsMax (l.drop d0) := by
    rw [List.mem_reverse, List.mem_range] at hk; omega
  have hgle : 4 * groupsMax (l.drop d0) ≤ (l.drop d0).length :=
    groupsMax_mul_le (l.drop d0)
  rw [List.length_drop] at hgle
  have hbase : d0 + 4 * k ≤ l.length := by omega
  split at h
  · next hfrac =>
    have h3 : 3 ≤ (l.drop (d0 + 4 * k)).length := fracOk2_length hfrac
    rw [List.length_drop] at h3
    simp only [List.mem_cons, List.not_mem_nil, or_false] at h
    omega
  · simp only [List.mem_cons, List.not_mem_nil, or_false] at h
    omega

theorem mem_num2Alts {l : List Char} {d : Nat} (h : d ∈ num2Alts l) :
    1 ≤ d ∧ d ≤ l.length := by
  unfold num2Alts at h
  split at h
  · next hc =>
    rw [Bool.and_eq_true] at hc
    have h3 : 3 ≤ (l.drop (digitRun l)).length := fracOk2_length hc.2
    rw [List.length_drop] at h3
    have := digitRun_le_length l
    simp only [List.mem_cons, List.not_mem_nil, or_false] at h
    omega
  · exact absurd h (List.not_mem_nil d)

theorem mem_num3Alts {l : List Char} {d : Nat} (h : d ∈ num3Alts l) :
    1 ≤ d ∧ d ≤ l.length := by
  unfold num3Alts at h
  rw [List.mem_map] at h
  obtain ⟨j, hj, rfl⟩ := h
  rw [List.mem_reverse, List.mem_range] at hj
  have := digitRun_le_length l
  omega

theorem dollarSignLen_bound {l : List Char} {p : Nat} (h : dollarSignLen l = some p) :
    1 ≤ p ∧ p ≤ l.length := by
  rcases l with _ | ⟨c, rest⟩
  · exact absurd h (by simp [dollarSignLen])
  · have hdef : dollarSignLen (c :: rest) =
        if c = '$' then some (1 + wsRun rest) else none := rfl
    rw [hdef] at h
    split at h
    · injection h with h
      subst h
      have := wsRun_le_length rest
      simp only [List.length_cons]
      omega
    · cases h

theorem usdMarkLen_bound {l : List Char} {p : Nat} (h : usdMarkLen l = some p) :
    1 ≤ p ∧ p ≤ l.length := by
  unfold usdMarkLen at h
  split at h
  · next hm =>
    injection h with h
    subst h
    have h3 : (chars "usd").length ≤ l.length := matchCI_length_le hm
    have h3' : 3 ≤ l.length := by simpa [chars] using h3
    have := wsRun_le_length (l.drop 3)
    rw [List.length_drop] at this
    omega
  · cases h

theorem mem_dollarsTailLens {l : List Char} {s : Nat} (h : s ∈ dollarsTailLens l) :
    1 ≤ s ∧ s ≤ l.length := by
  unfold dollarsTailLens at h
  rw [List.mem_append] at h
  have hw := wsRun_le_length l
  rcases h with h | h
  · split at h
    · next hm =>
      have h7 : (chars "dollars").length ≤ (l.drop (wsRun l)).length :=
        matchCI_length_le hm
      have h7' : 7 ≤ l.length - wsRun l := by
        simpa [chars, List.length_drop] using h7
      simp only [List.mem_singleton] at h
      omega
    · exact absurd h (List.not_mem_nil s)
  · split at h
    · next hm =>
      have h6 : (chars "dollar").length ≤ (l.drop (wsRun l)).length :=
        matchCI_length_le hm
      have h6' : 6 ≤ l.length - wsRun l := by
        simpa [chars, List.length_drop] using h6
      simp only [List.mem_singleton] at h
      omega
    · exact absurd h (List.not_mem_nil s)

/-- Bound of the symbol-first matchers: a match is nonempty and stays inside
the suffix it was found in. -/
theorem symbolPattern_bound {pfx : List Char → Option Nat}
    {alts : List Char → List Nat} {ci : Bool}
    (hp : ∀ l p, pfx l = some p → 1 ≤ p ∧ p ≤ l.length)
    (ha : ∀ l d, d ∈ alts l → 1 ≤ d ∧ d ≤ l.length)
    {l cap : List Char} {len : Nat}
    (h : symbolPattern pfx alts ci l = some (cap, len)) :
    1 ≤ len ∧ len ≤ l.length := by
  unfold symbolPattern at h
  split at h
  · cases h
  · next p hpfx =>
    obtain ⟨hp1, hp2⟩ := hp l p hpfx
    obtain ⟨d, hd, hfd⟩ := List.exists_of_findSome?_eq_some h
    obtain ⟨hd1, hd2⟩ := ha (l.drop p) d hd
    rw [List.length_drop] at hd2
    dsimp only at hfd
    split at hfd
    · injection hfd with hfd
      injection hfd with hc hl
      subst hl
      omega
    · cases hfd

/-- Bound of the `dollars?`-suffix matchers. -/
theorem dollarsPattern_bound {alts : List Char → List Nat}
    (ha : ∀ l d, d ∈ alts l → 1 ≤ d ∧ d ≤ l.length)
    {l cap : List Char} {len : Nat}
    (h : dollarsPattern alts l = some (cap, len)) :
    1 ≤ len ∧ len ≤ l.length := by
  unfold dollarsPattern at h
  obtain ⟨d, hd, hfd⟩ := List.exists_of_findSome?_eq_some h
  obtain ⟨hd1, hd2⟩ := ha l d hd
  obtain ⟨s, hs, hfs⟩ := List.exists_of_findSome?_eq_some hfd
  obtain ⟨hs1, hs2⟩ := mem_dollarsTailLens hs
  rw [List.length_drop] at hs2
  dsimp only at hfs
  split at hfs
  · injection hfs with hfs
    injection hfs with hc hl
    subst hl
    omega
  · cases hfs

/-- Every matcher in the price-pattern catalog is nonempty and in-bounds. -/
theorem pricePatterns_bound {m : Matcher} (hm : m ∈ pricePatterns)
    {l cap : List Char} {len : Nat} (h : m l = some (cap, len)) :
    1 ≤ len ∧ len ≤ l.length := by
  simp only [pricePatterns, List.mem_cons, List.not_mem_nil, or_false] at hm
  rcases hm with hm | hm | hm | hm | hm | hm | hm | hm | hm
  all_goals
    subst hm
  · exact symbolPattern_bound (fun _ _ => dollarSignLen_bound)
      (fun _ _ => mem_num1Alts) h
  · exact symbolPattern_bound (fun _ _ => dollarSignLen_bound)
      (fun _ _ => mem_num2Alts) h
  · exact symbolPattern_bound (fun _ _ => dollarSignLen_bound)
      (fun _ _ => mem_num3Alts) h
  · exact symbolPattern_bound (fun _ _ => usdMarkLen_bound)
      (fun _ _ => mem_num1Alts) h
  · exact symbolPattern_bound (fun _ _ => usdMarkLen_bound)
      (fun _ _ => mem_num2Alts) h
  · exact symbolPattern_bound (fun _ _ => usdMarkLen_bound)
      (fun _ _ => mem_num3Alts) h
  · exact dollarsPattern_bound (fun _ _ => mem_num1Alts) h
  · exact dollarsPattern_bound (fun _ _ => mem_num2Alts) h
  · exact dollarsPattern_bound (fun _ _ => mem_num3Alts) h

/-- One sweep of `String.prototype.matchAll` with a fresh regex: repeatedly try
the anchored matcher, continuing right after a match or one character forward
after a failure (a zero-length match would advance one character, mirroring the
engine's `lastIndex` bump; price matches are in fact always nonempty). Entries
are (start offset, capture, match length). -/
def scanAux (m : Matcher) : Nat → Nat → List Char → List (Nat × List Char × Nat)
  | 0, _, _ => []
  | fuel + 1, i, l =>
    match m l with
    | some (cap, len) =>
      (i, cap, len) :: scanAux m fuel (i + max len 1) (l.drop (max len 1))
    | none =>
      if l.isEmpty then [] else scanAux m fuel (i + 1) (l.drop 1)

/-- All matches of one price pattern over the text, left to right. -/
def scanMatches (m : Matcher) (t : List Char) : List (Nat × List Char × Nat) :=
  scanAux m (t.length + 1) 0 t

theorem scanAux_bound {m : Matcher}
    (hm : ∀ l cap len, m l = some (cap, len) → 1 ≤ len ∧ len ≤ l.length) :
    ∀ fuel i (l : List Char), ∀ e ∈ scanAux m fuel i l,
      i ≤ e.1 ∧ 1 ≤ e.2.2 ∧ e.1 + e.2.2 ≤ i + l.length
  | 0, i, l => by simp [scanAux]
  | fuel + 1, i, l => by
    intro e he
    rw [scanAux] at he
    split at he
    · next cap len hml =>
      obtain ⟨h1, h2⟩ := hm l cap len hml
      rcases List.mem_cons.mp he with rfl | he'
      · refine ⟨le_refl i, ?_, ?_⟩
        · simpa using h1
        · simp only
          omega
      · have ih := scanAux_bound hm fuel (i + max len 1) (l.drop (max len 1)) e he'
        rw [List.length_drop] at ih
        exact ⟨by omega, ih.2.1, by omega⟩
    · split at he
      · cases he
      · next hne =>
        have hlen : 1 ≤ l.length := by
          rcases l with _ | ⟨c, rest⟩
          · simp at hne
          · simp only [List.length_cons]; omega
        have ih := scanAux_bound hm fuel (i + 1) (l.drop 1) e he
        rw [List.length_drop] at ih
        exact ⟨by omega, ih.2.1, by omega⟩

theorem scanMatches_bound {m : Matcher}
    (hm : ∀ l cap len, m l = some (cap, len) → 1 ≤ len ∧ len ≤ l.length)
    {t : List Char} {e : Nat × List Char × Nat} (he : e ∈ scanMatches m t) :
    1 ≤ e.2.2 ∧ e.1 + e.2.2 ≤ t.length := by
  have h := scanAux_bound hm (t.length + 1) 0 t e he
  exact ⟨h.2.1, by omega⟩

/-- Value classes of a JavaScript number as produced by `parseFloat`:
not-a-number, signed infinity, or a finite value. Finite doubles are idealised
as exact rationals; every comparison the pipeline makes on them is far from a
representation boundary for the inputs considered. -/
inductive JsNum where
  | nan : JsNum
  | inf (neg : Bool) : JsNum
  | fin (q : ℚ) : JsNum
deriving DecidableEq, Repr

/-- Numeric value of a digit string (most significant first). -/
def natOfDigits (l : List Char) : Nat :=
  l.foldl (fun acc c => acc * 10 + (c.toNat - 48)) 0

/-- Exponent `[eE][+-]?\d+` at the head of the suffix, `0` when absent (the
longest-valid-prefix rule: a bare `e` or `e+` is not part of the literal). -/
def expVal (l : List Char) : Int :=
  match l with
  | c :: rest =>
    if c = 'e' || c = 'E' then
      match rest with
      | s :: rest2 =>
        if s = '+' then
          (if 1 ≤ digitRun rest2 then (natOfDigits (rest2.take (digitRun rest2)) : Int) else 0)
        else if s = '-' then
          (if 1 ≤ digitRun rest2 then -(natOfDigits (rest2.take (digitRun rest2)) : Int) else 0)
        else
          (if 1 ≤ digitRun rest then (natOfDigits (rest.take (digitRun rest)) : Int) else 0)
      | [] => 0
    else 0
  | [] => 0

/-- Decimal-literal body of `parseFloat` after sign handling: `Infinity`, or
`digits [. digits] [exponent]` with at least one digit, else NaN. -/
def parseFloatBody (neg : Bool) (l : List Char) : JsNum :=
  if matchCS (chars "Infinity") l then JsNum.inf neg
  else
    let d1 := digitRun l
    let rest1 := l.drop d1
    let hasDot : Bool :=
      match rest1 with
      | c :: _ => c = '.'
      | [] => false
    let d2 := if hasDot then digitRun (rest1.drop 1) else 0
    if d1 = 0 && d2 = 0 then JsNum.nan
    else
      let afterFrac := if hasDot then rest1.drop (1 + d2) else rest1
      let mant : ℚ :=
        (natOfDigits (l.take d1) : ℚ) + (natOfDigits ((rest1.drop 1).take d2) : ℚ) / 10 ^ d2
      let e : Int := expVal afterFrac
      JsNum.fin ((if neg then -1 else 1) * mant *
        (if 0 ≤ e then (10 : ℚ) ^ e.toNat else 1 / 10 ^ (-e).toNat))

/-- JavaScript `parseFloat`: skip leading whitespace, optional sign, then the
longest valid decimal-literal prefix; no digits anywhere gives NaN. -/
def parseFloat (s : List Char) : JsNum :=
  match s.dropWhile jsSpace with
  | c :: rest =>
    if c = '+' then parseFloatBody false rest
    else if c = '-' then parseFloatBody true rest
    else parseFloatBody false (c :: rest)
  | [] => JsNum.nan

/-- JavaScript `String.prototype.trim` (ASCII whitespace). -/
def trimJS (l : List Char) : List Char :=
  ((l.dropWhile jsSpace).reverse.dropWhile jsSpace).reverse

/-- Value stage of `parseUSDAmount`: the `parseFloat` of the comma-stripped,
trimmed input. -/
def parsedValue (s : List Char) : JsNum :=
  parseFloat (trimJS (s.filter fun c => c ≠ ','))

/-- Finite payload of a `JsNum` (0 for NaN and the infinities). -/
def finValue : JsNum → ℚ
  | JsNum.fin q => q
  | _ => 0

/-- Whether a `JsNum` is finite (`!isNaN` and not an infinity). -/
def isFin : JsNum → Bool
  | JsNum.fin _ => true
  | _ => false

/-- `parseUSDAmount` of the content script: strip commas, trim, `parseFloat`;
reject NaN and amounts below `0.01`; reject amounts above `1e15` (one
quadrillion). A `-Infinity` result fails the minimum check and `Infinity` the
ceiling, so both also map to 0, as in the source. -/
def parseUSDAmount (s : List Char) : ℚ :=
  match parsedValue s with
  | JsNum.nan => 0
  | JsNum.inf neg => if neg then 0 else 0
  | JsNum.fin a => if a < 1 / 100 then 0 else if 10 ^ 15 < a then 0 else a

theorem parseUSDAmount_range (s : List Char) :
    parseUSDAmount s = 0 ∨
      (1 / 100 ≤ parseUSDAmount s ∧ parseUSDAmount s ≤ 10 ^ 15) := by
  unfold parseUSDAmount
  split
  · exact Or.inl rfl
  · next neg => split <;> exact Or.inl rfl
  · next a =>
    split
    · exact Or.inl rfl
    · next hlo =>
      split
      · exact Or.inl rfl
      · next hhi =>
        push_neg at hlo hhi
        exact Or.inr ⟨hlo, hhi⟩

theorem parseUSDAmount_comma_stripped (s : List Char) :
    parseUSDAmount (s.filter fun c => c ≠ ',') = parseUSDAmount s := by
  unfold parseUSDAmount parsedValue
  rw [List.filter_filter]
  have hfe : (fun c => decide (c ≠ ',') && decide (c ≠ ',')) =
      (fun c : Char => decide (c ≠ ',')) := by
    funext c
    exact Bool.and_self _

  rw [hfe]

/-- Body shared by the five exclusion regexes after their currency marker:
`\d+(?:\.\d+)?\s*(?:WORDS)` followed either by `\b` (patterns 1, 2, 4, 5) or
by `\s*dollars?` (pattern 3, which carries no `\b`). Words start with letters,
so only the maximal digit, fraction, and whitespace splits can be followed by
one and the engine is deterministic up to the word alternation. -/
def exclTail (words : List (List Char)) (dollarsTail : Bool) (l : List Char) : Bool :=
  if digitRun l = 0 then false
  else
    let l1 := l.drop (digitRun l)
    let l2 :=
      match l1 with
      | c :: r => if c = '.' && 1 ≤ digitRun r then r.drop (digitRun r) else l1
      | [] => l1
    let l3 := l2.drop (wsRun l2)
    words.any fun w =>
      matchCI w l3 &&
        (if dollarsTail then
          matchCI (chars "dollar") ((l3.drop w.length).drop (wsRun (l3.drop w.length)))
        else wordBoundary (l3.drop w.length))

/-- Exclusion regex 1, `\$\s*\d+(?:\.\d+)?\s*(?:scale words)\b` (`gi`). -/
def exclPattern1 (l : List Char) : Bool :=
  match l with
  | c :: rest => c = '$' && exclTail scaleWords false (rest.drop (wsRun rest))
  | [] => false

/-- Exclusion regex 2, `USD\s*\d+(?:\.\d+)?\s*(?:scale words)\b` (`gi`). -/
def exclPattern2 (l : List Char) : Bool :=
  matchCI (chars "usd") l && exclTail scaleWords false ((l.drop 3).drop (wsRun (l.drop 3)))

/-- Exclusion regex 3, `\d+(?:\.\d+)?\s*(?:scale words)\s*dollars?` (`gi`). -/
def exclPattern3 (l : List Char) : Bool :=
  exclTail scaleWords true l

/-- Exclusion regex 4, `\$\s*\d+(?:\.\d+)?\s*[kmbt]\b` (`gi`). -/
def exclPattern4 (l : List Char) : Bool :=
  match l with
  | c :: rest => c = '$' && exclTail kmbtWords false (rest.drop (wsRun rest))
  | [] => false

/-- Exclusion regex 5, `USD\s*\d+(?:\.\d+)?\s*[kmbt]\b` (`gi`). -/
def exclPattern5 (l : List Char) : Bool :=
  matchCI (chars "usd") l && exclTail kmbtWords false ((l.drop 3).drop (wsRun (l.drop 3)))

/-- `RegExp.prototype.test` with fresh state: does the anchored predicate
succeed at some position of the text? -/
def testAnywhere (m : List Char → Bool) : List Char → Bool
  | [] => m []
  | c :: rest => m (c :: rest) || testAnywhere m rest

/-- `this.exclusionPatterns.some((pattern) => pattern.test(originalText))`
(lines 163-165) for a single scan with every regex's `lastIndex` at 0 — the
state of freshly constructed regex objects. The five exclusion regexes are
persistent objects carrying the `g` flag, so a real `.test` call starts at
the `lastIndex` left behind by the previous call on the same pattern; that
stateful screen is `hasExclusionPatternS` below, and with a stale `lastIndex`
it can fire on strictly fewer texts than this fresh-scan predicate. -/
def hasExclusionPattern (t : List Char) : Bool :=
  [exclPattern1, exclPattern2, exclPattern3, exclPattern4, exclPattern5].any
    fun m => testAnywhere m t

/-- `exclTail` refined with the matched length: how many characters the shared
exclusion-regex body consumes from `l` when it matches at this position,
`none` when it does not. The word alternation is tried in source order, so
the first word whose continuation succeeds fixes the match end, as in the
engine; `dollars?` is greedy, taking the `s` when present; `\b` is
zero-width. The length is what a `g`-flag regex adds to its `lastIndex`. -/
def exclTailLen (words : List (List Char)) (dollarsTail : Bool) (l : List Char) :
    Option Nat :=
  if digitRun l = 0 then none
  else
    let l1 := l.drop (digitRun l)
    let l2 :=
      match l1 with
      | c :: r => if c = '.' && 1 ≤ digitRun r then r.drop (digitRun r) else l1
      | [] => l1
    let l3 := l2.drop (wsRun l2)
    words.findSome? fun w =>
      if matchCI w l3 then
        if dollarsTail then
          let l5 := (l3.drop w.length).drop (wsRun (l3.drop w.length))
          if matchCI (chars "dollars") l5 then some (l.length - (l5.length - 7))
          else if matchCI (chars "dollar") l5 then some (l.length - (l5.length - 6))
          else none
        else if wordBoundary (l3.drop w.length) then
          some (l.length - (l3.drop w.length).length)
        else none
      else none

/-- Exclusion regex 1 with its match length. -/
def exclPattern1Len (l : List Char) : Option Nat :=
  match l with
  | c :: rest =>
    if c = '$' then
      (exclTailLen scaleWords false (rest.drop (wsRun rest))).map
        fun n => 1 + wsRun rest + n
    else none
  | [] => none

/-- Exclusion regex 2 with its match length. -/
def exclPattern2Len (l : List Char) : Option Nat :=
  if matchCI (chars "usd") l then
    (exclTailLen scaleWords false ((l.drop 3).drop (wsRun (l.drop 3)))).map
      fun n => 3 + wsRun (l.drop 3) + n
  else none

/-- Exclusion regex 3 with its match length. -/
def exclPattern3Len (l : List Char) : Option Nat :=
  exclTailLen scaleWords true l

/-- Exclusion regex 4 with its match length. -/
def exclPattern4Len (l : List Char) : Option Nat :=
  match l with
  | c :: rest =>
    if c = '$' then
      (exclTailLen kmbtWords false (rest.drop (wsRun rest))).map
        fun n => 1 + wsRun rest + n
    else none
  | [] => none

/-- Exclusion regex 5 with its match length. -/
def exclPattern5Len (l : List Char) : Option Nat :=
  if matchCI (chars "usd") l then
    (exclTailLen kmbtWords false ((l.drop 3).drop (wsRun (l.drop 3)))).map
      fun n => 3 + wsRun (l.drop 3) + n
  else none

/-- The five persistent exclusion regex objects (lines 26-33) each carry a
mutable `lastIndex` because of their `g` flag; it survives from one
`processTextNode` call to the next for the whole life of the converter. -/
structure ExclState where
  i1 : Nat
  i2 : Nat
  i3 : Nat
  i4 : Nat
  i5 : Nat
deriving DecidableEq, Repr

/-- The state of freshly constructed exclusion regexes: every `lastIndex` 0. -/
def freshExclState : ExclState := ⟨0, 0, 0, 0, 0⟩

/-- Forward scan of `exec` on a `g`-flag regex: from absolute position `i`,
find the leftmost match of the anchored length-matcher at or after `i` and
return the new `lastIndex` (the match end); `fuel` bounds the walk. -/
def scanFrom (m : List Char → Option Nat) : Nat → Nat → List Char → Option Nat
  | 0, _, _ => none
  | fuel + 1, i, l =>
    match m l with
    | some len => some (i + len)
    | none => if l.isEmpty then none else scanFrom m fuel (i + 1) (l.drop 1)

/-- `RegExp.prototype.test` on a persistent `g`-flag regex (the semantics of
`exec`): matching starts at `lastIndex`; on success `lastIndex` becomes the
match end and the result is `true`; on failure — including a `lastIndex`
beyond the text — `lastIndex` resets to `0` and the result is `false`. -/
def testG (m : List Char → Option Nat) (lastIndex : Nat) (t : List Char) :
    Bool × Nat :=
  if t.length < lastIndex then (false, 0)
  else
    match scanFrom m (t.length + 1) lastIndex (t.drop lastIndex) with
    | some e => (true, e)
    | none => (false, 0)

/-- `this.exclusionPatterns.some((pattern) => pattern.test(originalText))`
(lines 163-165) with the regexes' persistent state: `some` tests the patterns
in order and stops at the first success, so the successful pattern's
`lastIndex` advances to its match end, every pattern tried before it resets
to `0` (they failed), and the patterns after it keep their old `lastIndex`
untouched. -/
def hasExclusionPatternS (st : ExclState) (t : List Char) : Bool × ExclState :=
  match testG exclPattern1Len st.i1 t with
  | (true, n1) => (true, { st with i1 := n1 })
  | (false, n1) =>
    match testG exclPattern2Len st.i2 t with
    | (true, n2) => (true, { st with i1 := n1, i2 := n2 })
    | (false, n2) =>
      match testG exclPattern3Len st.i3 t with
      | (true, n3) => (true, { st with i1 := n1, i2 := n2, i3 := n3 })
      | (false, n3) =>
        match testG exclPattern4Len st.i4 t with
        | (true, n4) => (true, { st with i1 := n1, i2 := n2, i3 := n3, i4 := n4 })
        | (false, n4) =>
          match testG exclPattern5Len st.i5 t with
          | (true, n5) => (true, ⟨n1, n2, n3, n4, n5⟩)
          | (false, n5) => (false, ⟨n1, n2, n3, n4, n5⟩)

/-- A member of `allMatches` (lines 174-190). `stop` embeds the source field
`end` (a Lean keyword): the exclusive end offset `match.index + match[0].length`. -/
structure Candidate where
  usdAmount : ℚ
  originalPrice : List Char
  start : Nat
  stop : Nat
deriving DecidableEq, Repr

/-- A member of `priceReplacements` (lines 221-226); `stop` embeds `end`. -/
structure Replacement where
  originalPrice : List Char
  kauText : List Char
  start : Nat
  stop : Nat
deriving DecidableEq, Repr

/-- Substring `t.substring(a, b)` for `a ≤ b`. -/
def extract (t : List Char) (a b : Nat) : List Char := (t.drop a).take (b - a)

/-- The collection loop of `processTextNode` (lines 173-190): every match of
every pattern, in catalog order, kept only when its parsed amount is
positive. -/
def allCandidates (t : List Char) : List Candidate :=
  pricePatterns.flatMap fun m =>
    (scanMatches m t).filterMap fun e =>
      if 0 < parseUSDAmount e.2.1 then
        some { usdAmount := parseUSDAmount e.2.1,
               originalPrice := extract t e.1 (e.1 + e.2.2),
               start := e.1, stop := e.1 + e.2.2 }
      else none

/-- The comparator of `allMatches.sort` (lines 192-199) as the strict
comes-before relation it induces: start ascending, ties to the larger end. -/
def candBefore (a b : Candidate) : Bool :=
  a.start < b.start || (a.start = b.start && b.stop < a.stop)

/-- Stable insertion for `candBefore`: an element walks past exactly the
elements that strictly precede it, as in the engine's stable sort. -/
def insertCand (a : Candidate) : List Candidate → List Candidate
  | [] => [a]
  | b :: l => if candBefore b a then b :: insertCand a l else a :: b :: l

/-- Stable sort of the candidates by the source comparator. -/
def sortCands : List Candidate → List Candidate
  | [] => []
  | a :: l => insertCand a (sortCands l)

/-- The overlap test of line 207: `start < range.end && end > range.start`. -/
def spansOverlap (s e : Nat) (r : Nat × Nat) : Bool := s < r.2 && r.1 < e

/-- The accept loop of `processTextNode` (lines 202-228): walk the sorted
candidates, accepting one exactly when it overlaps no already-accepted range. -/
def greedyAccept : List Candidate → List (Nat × Nat) → List Candidate
  | [], _ => []
  | c :: cs, acc =>
    if acc.any (spansOverlap c.start c.stop) then greedyAccept cs acc
    else c :: greedyAccept cs ((c.start, c.stop) :: acc)

/-- The accepted candidates of one scan of a text. -/
def acceptedCands (t : List Char) : List Candidate :=
  greedyAccept (sortCands (allCandidates t)) []

/-- `convertToKAU` (lines 327-335): 0 when no price object or a falsy price
field, else `usdAmount / price`. -/
def convertToKAU (kauPrice : Option ℚ) (usdAmount : ℚ) : ℚ :=
  match kauPrice with
  | none => 0
  | some p => if p = 0 then 0 else usdAmount / p

/-- ASCII digit character of `d < 10`. -/
def digitChar (d : Nat) : Char := Char.ofNat (48 + d)

def natToCharsAux : Nat → Nat → List Char
  | 0, _ => []
  | fuel + 1, n =>
    if n < 10 then [digitChar n]
    else natToCharsAux fuel (n / 10) ++ [digitChar (n % 10)]

/-- Decimal digits of a natural number, most significant first. -/
def natToChars (n : Nat) : List Char := natToCharsAux (n + 1) n

/-- Zero-pad on the left to exactly `k` characters. -/
def padZeros (k : Nat) (ds : List Char) : List Char :=
  List.replicate (k - ds.length) '0' ++ ds

def toFixedCharsNN (q : ℚ) (f : Nat) : List Char :=
  if f = 0 then natToChars (⌊q * 10 ^ f + 1 / 2⌋.toNat)
  else
    natToChars (⌊q * 10 ^ f + 1 / 2⌋.toNat / 10 ^ f) ++
      '.' :: padZeros f (natToChars (⌊q * 10 ^ f + 1 / 2⌋.toNat % 10 ^ f))

/-- `Number.prototype.toFixed(f)`: sign split, then round to `f` digits after
the point with ties away from zero, printed with exactly `f` fraction
digits. -/
def toFixedChars (q : ℚ) (f : Nat) : List Char :=
  if q < 0 then '-' :: toFixedCharsNN (-q) f else toFixedCharsNN q f

/-- `Math.round`: floor of `x + 1/2`, halves toward positive infinity. -/
def jsRound (q : ℚ) : Int := ⌊q + 1 / 2⌋

def intToChars (n : Int) : List Char :=
  if n < 0 then '-' :: natToChars n.natAbs else natToChars n.toNat

def natGroupedAux : Nat → Nat → List Char
  | 0, _ => []
  | fuel + 1, n =>
    if n < 1000 then natToChars n
    else natGroupedAux fuel (n / 1000) ++ ',' :: padZeros 3 (natToChars (n % 1000))

/-- Integer digits with en-US thousands grouping. -/
def natToCharsGrouped (n : Nat) : List Char := natGroupedAux (n + 1) n

/-- `toLocaleString("en-US", maximumFractionDigits 2)` for the nonnegative
values reaching the large band: grouped integer digits, at most two fraction
digits with trailing zeros omitted (`minimumFractionDigits` defaults to 0),
half-expand rounding. -/
def toLocale2Chars (q : ℚ) : List Char :=
  if ⌊q * 100 + 1 / 2⌋.toNat % 100 = 0 then natToCharsGrouped (⌊q * 100 + 1 / 2⌋.toNat / 100)
  else if ⌊q * 100 + 1 / 2⌋.toNat % 10 = 0 then
    natToCharsGrouped (⌊q * 100 + 1 / 2⌋.toNat / 100) ++
      '.' :: natToChars (⌊q * 100 + 1 / 2⌋.toNat % 100 / 10)
  else
    natToCharsGrouped (⌊q * 100 + 1 / 2⌋.toNat / 100) ++
      '.' :: padZeros 2 (natToChars (⌊q * 100 + 1 / 2⌋.toNat % 100))

/-- `formatKAUAmount` (lines 337-356). The micro-scale label reproduces the
source file's literal bytes, a mojibake rendering of the Greek letter mu. -/
def formatKAUAmount (kauAmount : ℚ) : List Char :=
  if kauAmount < 1 / 10000 then
    intToChars (jsRound (kauAmount * 1000000)) ++ chars " Î¼KAU"
  else if kauAmount < 1 / 100 then
    toFixedChars (kauAmount * 1000) 2 ++ chars " mKAU"
  else if kauAmount < 1 then
    toFixedChars kauAmount 4 ++ chars " KAU"
  else if kauAmount < 1000 then
    toFixedChars kauAmount 2 ++ chars " KAU"
  else
    toLocale2Chars kauAmount ++ chars " KAU"

/-- Conversion of one accepted candidate into the stored replacement
(lines 210-226). -/
def buildReplacement (kauPrice : Option ℚ) (c : Candidate) : Replacement :=
  { originalPrice := c.originalPrice
    kauText := formatKAUAmount (convertToKAU kauPrice c.usdAmount)
    start := c.start
    stop := c.stop }

/-- `priceReplacements` of one scan of a text. -/
def priceReplacements (kauPrice : Option ℚ) (t : List Char) : List Replacement :=
  (acceptedCands t).map (buildReplacement kauPrice)

/-- A node of the replacement fragment: a plain text run, or the annotated
`span.usd-to-kau-converted` wrapper (its icon and inner text children are
summarised by the stored display text). -/
inductive DomNode where
  | textNode (s : List Char) : DomNode
  | wrapper (title : List Char) (kauText : List Char) : DomNode
deriving DecidableEq, Repr

/-- Tooltip of line 273: the template literal `Original USD: ` followed by the
matched original text. -/
def wrapperTitle (originalPrice : List Char) : List Char :=
  chars "Original USD: " ++ originalPrice

/-- Comparator of `priceReplacements.sort` (line 232), descending starts. -/
def repBefore (a b : Replacement) : Bool := b.start < a.start

def insertRep (a : Replacement) : List Replacement → List Replacement
  | [] => [a]
  | b :: l => if repBefore b a then b :: insertRep a l else a :: b :: l

def sortRepsDesc : List Replacement → List Replacement
  | [] => []
  | a :: l => insertRep a (sortRepsDesc l)

/-- The fragment construction loop (lines 236-279): walk the replacements in
descending start order, prepending the interleaved after-text run (when
nonempty) and the wrapper, tracking `currentIndex`. Returns the fragment in
document order and the final `currentIndex`. -/
def fragLoop (orig : List Char) : List Replacement → Nat → List DomNode →
    List DomNode × Nat
  | [], ci, frag => (frag, ci)
  | r :: rest, ci, frag =>
    fragLoop orig rest r.start
      (DomNode.wrapper (wrapperTitle r.originalPrice) r.kauText ::
        (if r.stop < ci then
          (if extract orig r.stop ci ≠ [] then
            DomNode.textNode (extract orig r.stop ci) :: frag
          else frag)
        else frag))

/-- The whole fragment (lines 230-290): loop result plus the leading text run. -/
def buildFragment (orig : List Char) (reps : List Replacement) : List DomNode :=
  match fragLoop orig (sortRepsDesc reps) orig.length [] with
  | (frag, ci) =>
    if 0 < ci then
      (if extract orig 0 ci ≠ [] then DomNode.textNode (extract orig 0 ci) :: frag
      else frag)
    else frag

/-- State of a DocumentFragment right after `replaceChild(fragment, textNode)`
(line 293): per the DOM standard, inserting a fragment moves its children into
the target parent, leaving the fragment itself empty. -/
def fragmentAfterInsert (frag : List DomNode) : List DomNode :=
  match frag with
  | _ => []

/-- `fragment.querySelectorAll("*")` (line 296): the fragment's element
descendants; text nodes are never selected, and an empty fragment has no
descendants at all. -/
def elementNodes (frag : List DomNode) : List DomNode :=
  frag.filter fun n =>
    match n with
    | DomNode.textNode _ => false
    | DomNode.wrapper _ _ => true

/-- Observable outcome of `processTextNode` on one text node. -/
structure NodeOutcome where
  replacements : List Replacement
  createdNodes : List DomNode
  textUnchanged : Bool
  origMarked : Bool
  newMarked : List DomNode
deriving DecidableEq, Repr

/-- Outcome when the node's text is left in place. -/
def unchangedOutcome (origMarked : Bool) : NodeOutcome :=
  { replacements := [], createdNodes := [], textUnchanged := true,
    origMarked := origMarked, newMarked := [] }

/-- `processTextNode` (lines 152-301): the exclusion screen, candidate
collection, overlap resolution, conversion, fragment construction, the node
swap, and the post-swap marking pass, which runs `querySelectorAll` over the
fragment that `replaceChild` has just emptied. The exclusion screen here is
the fresh-state `hasExclusionPattern`; `processTextNodeS` below threads the
exclusion regexes' persistent `lastIndex` state instead. (The nine price
patterns also carry `g`, but they are consulted only through `matchAll`,
which clones the regex and never writes the original's `lastIndex`, so their
state stays 0 and the stateless scan is exact for them.) -/
def processTextNode (kauPrice : Option ℚ) (t : List Char) : NodeOutcome :=
  if hasExclusionPattern t then unchangedOutcome true
  else
    if (priceReplacements kauPrice t).isEmpty then unchangedOutcome true
    else
      { replacements := priceReplacements kauPrice t
        createdNodes := buildFragment t (priceReplacements kauPrice t)
        textUnchanged := false
        origMarked := false
        newMarked :=
          elementNodes (fragmentAfterInsert (buildFragment t (priceReplacements kauPrice t))) }

/-- `processPage` (lines 117-124) together with the page context the script
runs in: the guard reads only the cached price and the enabled flag; the
hostname and the user exclusion list are parameters the content script never
consults. -/
def processPage (hostname : List Char) (userExcludedUrls : List (List Char))
    (kauPrice : Option ℚ) (enabled : Bool) (t : List Char) : NodeOutcome :=
  if kauPrice.isNone || !enabled then unchangedOutcome false
  else processTextNode kauPrice t

/-- `processTextNode` with the exclusion regexes' persistent state threaded
through: identical to `processTextNode` except that the screen at lines
163-165 starts each pattern at its carried `lastIndex` and updates it. -/
def processTextNodeS (st : ExclState) (kauPrice : Option ℚ) (t : List Char) :
    NodeOutcome × ExclState :=
  match hasExclusionPatternS st t with
  | (true, st1) => (unchangedOutcome true, st1)
  | (false, st1) =>
    if (priceReplacements kauPrice t).isEmpty then (unchangedOutcome true, st1)
    else
      ({ replacements := priceReplacements kauPrice t
         createdNodes := buildFragment t (priceReplacements kauPrice t)
         textUnchanged := false
         origMarked := false
         newMarked :=
           elementNodes
             (fragmentAfterInsert (buildFragment t (priceReplacements kauPrice t))) },
       st1)

/-- Consecutive text nodes of one page walk (the TreeWalker loop, lines
127-150, feeding `processTextNode`): the exclusion regexes' `lastIndex`
state flows out of each node's screen and into the next node's. -/
def processTextNodesS (kauPrice : Option ℚ) :
    ExclState → List (List Char) → List NodeOutcome × ExclState
  | st, [] => ([], st)
  | st, t :: ts =>
    match processTextNodeS st kauPrice t with
    | (o, st1) =>
      match processTextNodesS kauPrice st1 ts with
      | (os, st2) => (o :: os, st2)

/-- `HARDCODED_EXCLUDED_URLS` (background.js and popup.js, line 2). -/
def hardcodedExcludedUrls : List (List Char) :=
  [chars "kinesis.money", chars "mene.com"]

/-- The hardcoded-exclusion hostname test of popup.js (`isHardcodedExcluded`,
lines 437-451) and background.js (lines 300-307): exact hostname match or a
dot-separated subdomain. -/
def isHardcodedExcluded (hostname : List Char) : Bool :=
  hardcodedExcludedUrls.any fun u =>
    hostname = u || (chars "." ++ u).isSuffixOf hostname

/-- The stored rate snapshot (`priceData` of background.js). -/
structure PriceData where
  price : ℚ
  source : List Char
deriving DecidableEq, Repr

/-- Troy-ounce-to-gram divisor (background.js line 27). -/
def gramsPerOunce : ℚ := 311034768 / 10000000

/-- Fallback price per gram (background.js line 28). -/
def fallbackGoldPricePerGram : ℚ := 130

/-- `fetchGoldPrice` (background.js lines 31-96) over the outcome of each
configured API in order: `none` is any failed fetch, non-OK status, parse
error, or NaN, and `some p` a parsed per-ounce price. The first response that
is positive and inside the 1000-5000 sanity band is converted to per-gram and
stored; when every API fails, the hardcoded fallback price is stored with
source `fallback`. -/
def fetchGoldPrice (responses : List (List Char × Option ℚ)) : PriceData :=
  match responses with
  | [] => { price := fallbackGoldPricePerGram, source := chars "fallback" }
  | (name, r) :: rest =>
    match r with
    | some p =>
      if p ≤ 0 || p < 1000 || 5000 < p then fetchGoldPrice rest
      else { price := p / gramsPerOunce, source := name }
    | none => fetchGoldPrice rest

/-- Follows claim C10's wording, not the source: a written-out amount without
any currency marker, i.e. a digit run followed by optional whitespace and a
scale word or single letter k/m/b/t ending at a word boundary. -/
def specWrittenAmountAt (l : List Char) : Bool :=
  1 ≤ digitRun l &&
    (scaleWords.any fun w =>
      matchCI w ((l.drop (digitRun l)).drop (wsRun (l.drop (digitRun l)))) &&
        wordBoundary
          (((l.drop (digitRun l)).drop (wsRun (l.drop (digitRun l)))).drop w.length))

/-- Claim C10's premise at whole-text level: some position carries a
written-out amount (currency marker not required). -/
def specContainsWrittenAmount (t : List Char) : Bool :=
  testAnywhere specWrittenAmountAt t

/-- Follows claim C9's wording, not the source: a valid non-negative decimal
numeral, digits with at most one point and at least one digit. -/
def specValidNonnegDecimal (s : List Char) : Bool :=
  match s.drop (digitRun s) with
  | [] => 1 ≤ digitRun s
  | c :: r => c = '.' && (1 ≤ digitRun s || 1 ≤ digitRun r) && r.all jsDigit

theorem mem_allCandidates {t : List Char} {c : Candidate} (hc : c ∈ allCandidates t) :
    0 < c.usdAmount ∧ c.start < c.stop ∧ c.stop ≤ t.length := by
  unfold allCandidates at hc
  rw [List.mem_flatMap] at hc
  obtain ⟨m, hm, hc⟩ := hc
  rw [List.mem_filterMap] at hc
  obtain ⟨e, he, hce⟩ := hc
  have hb := scanMatches_bound (fun l cap len h => pricePatterns_bound hm h) he
  split at hce
  · next hpos =>
    injection hce with hce
    subst hce
    refine ⟨hpos, ?_, ?_⟩
    · simp only
      omega
    · simp only
      omega
  · cases hce

/-- The non-strict total order induced by the sort comparator. -/
def candLe (a b : Candidate) : Prop :=
  a.start < b.start ∨ (a.start = b.start ∧ b.stop ≤ a.stop)

theorem candLe_of_before {a b : Candidate} (h : candBefore a b = true) : candLe a b := by
  unfold candBefore at h
  rw [Bool.or_eq_true, Bool.and_eq_true] at h
  unfold candLe
  rcases h with h | ⟨h1, h2⟩
  · exact Or.inl (by exact_mod_cast of_decide_eq_true h)
  · exact Or.inr ⟨of_decide_eq_true h1, le_of_lt (of_decide_eq_true h2)⟩

theorem candLe_of_not_before {a b : Candidate} (h : candBefore b a = false) : candLe a b := by
  unfold candBefore at h
  rw [Bool.or_eq_false_iff, Bool.and_eq_false_iff] at h
  obtain ⟨h1, h2⟩ := h
  have h1' : ¬ b.start < a.start := of_decide_eq_false h1
  unfold candLe
  rcases Nat.lt_or_ge a.start b.start with hlt | hge
  · exact Or.inl hlt
  · have heq : a.start = b.start := by omega
    refine Or.inr ⟨heq, ?_⟩
    rcases h2 with h2 | h2
    · exact absurd (heq.symm) (by simpa using h2)
    · have : ¬ a.stop < b.stop := of_decide_eq_false h2
      omega

theorem candLe_trans {a b c : Candidate} (h1 : candLe a b) (h2 : candLe b c) :
    candLe a c := by
  unfold candLe at h1 h2 ⊢
  omega

theorem mem_insertCand {a x : Candidate} : ∀ {l : List Candidate},
    x ∈ insertCand a l ↔ x = a ∨ x ∈ l
  | [] => by simp [insertCand]
  | b :: l => by
    rw [insertCand]
    split
    · simp only [List.mem_cons, mem_insertCand (l := l)]
      tauto
    · simp only [List.mem_cons]

theorem pairwise_insertCand {a : Candidate} : ∀ {l : List Candidate},
    l.Pairwise candLe → (insertCand a l).Pairwise candLe
  | [] => fun _ => by simp [insertCand, List.pairwise_cons]
  | b :: l => fun h => by
    rw [List.pairwise_cons] at h
    rw [insertCand]
    split
    · next hba =>
      rw [List.pairwise_cons]
      refine ⟨?_, pairwise_insertCand h.2⟩
      intro x hx
      rcases mem_insertCand.mp hx with rfl | hx
      · exact candLe_of_before hba
      · exact h.1 x hx
    · next hba =>
      rw [List.pairwise_cons]
      have hab : candLe a b := candLe_of_not_before (Bool.eq_false_iff.mpr hba)
      refine ⟨?_, List.pairwise_cons.mpr h⟩
      intro x hx
      rcases List.mem_cons.mp hx with rfl | hx
      · exact hab
      · exact candLe_trans hab (h.1 x hx)

theorem pairwise_sortCands : ∀ l : List Candidate, (sortCands l).Pairwise candLe
  | [] => by simp [sortCands]
  | a :: l => pairwise_insertCand (pairwise_sortCands l)

theorem mem_sortCands {x : Candidate} : ∀ {l : List Candidate},
    x ∈ sortCands l ↔ x ∈ l
  | [] => by simp [sortCands]
  | a :: l => by
    rw [sortCands, mem_insertCand, mem_sortCands (l := l), List.mem_cons]

theorem spansOverlap_false_iff {s e : Nat} {r : Nat × Nat} :
    spansOverlap s e r = false ↔ (r.2 ≤ s ∨ e ≤ r.1) := by
  unfold spansOverlap
  rw [Bool.and_eq_false_iff]
  constructor
  · rintro (h | h)
    · exact Or.inl (by simpa using of_decide_eq_false h)
    · exact Or.inr (by simpa using of_decide_eq_false h)
  · rintro (h | h)
    · exact Or.inl (by simpa using h)
    · exact Or.inr (by simpa using h)

theorem greedyAccept_sublist : ∀ (cs : List Candidate) (acc : List (Nat × Nat)),
    (greedyAccept cs acc).Sublist cs
  | [], _ => by unfold greedyAccept; exact List.Sublist.refl []
  | c :: cs, acc => by
    rw [greedyAccept]
    split
    · exact List.Sublist.cons c (greedyAccept_sublist cs acc)
    · exact List.Sublist.cons₂ c (greedyAccept_sublist cs ((c.start, c.stop) :: acc))

theorem greedyAccept_no_acc_overlap :
    ∀ (cs : List Candidate) (acc : List (Nat × Nat)),
      ∀ x ∈ greedyAccept cs acc, ∀ r ∈ acc, spansOverlap x.start x.stop r = false
  | [], _ => by unfold greedyAccept; simp
  | c :: cs, acc => by
    rw [greedyAccept]
    split
    · exact greedyAccept_no_acc_overlap cs acc
    · next hno =>
      intro x hx r hr
      rcases List.mem_cons.mp hx with rfl | hx
      · exact Bool.eq_false_iff.mpr
          (List.any_eq_false.mp (Bool.eq_false_iff.mpr hno) r hr)
      · exact greedyAccept_no_acc_overlap cs ((c.start, c.stop) :: acc) x hx r
          (List.mem_cons_of_mem _ hr)

/-- Disjointness of two candidates' half-open spans. -/
def candsDisjoint (a b : Candidate) : Prop := a.stop ≤ b.start ∨ b.stop ≤ a.start

theorem greedyAccept_pairwise :
    ∀ (cs : List Candidate) (acc : List (Nat × Nat)),
      (greedyAccept cs acc).Pairwise candsDisjoint
  | [], _ => by unfold greedyAccept; simp
  | c :: cs, acc => by
    rw [greedyAccept]
    split
    · exact greedyAccept_pairwise cs acc
    · rw [List.pairwise_cons]
      refine ⟨?_, greedyAccept_pairwise cs ((c.start, c.stop) :: acc)⟩
      intro x hx
      have h := greedyAccept_no_acc_overlap cs ((c.start, c.stop) :: acc) x hx
        (c.start, c.stop) (List.mem_cons_self _ _)
      have h' := spansOverlap_false_iff.mp h
      unfold candsDisjoint
      simp only at h'
      omega

theorem greedyAccept_reject_overlap :
    ∀ (cs : List Candidate) (acc : List (Nat × Nat)) (c : Candidate),
      c ∈ cs → c ∉ greedyAccept cs acc →
      (∃ r ∈ acc, spansOverlap c.start c.stop r = true) ∨
      (∃ x ∈ greedyAccept cs acc, spansOverlap c.start c.stop (x.start, x.stop) = true)
  | [], _, c => fun hc _ => absurd hc (List.not_mem_nil c)
  | d :: cs, acc, c => fun hc hnc => by
    rw [greedyAccept] at hnc ⊢
    by_cases hover : acc.any (spansOverlap d.start d.stop) = true
    · rw [if_pos hover] at hnc ⊢
      rcases List.mem_cons.mp hc with rfl | hc
      · exact Or.inl (List.any_eq_true.mp hover)
      · exact greedyAccept_reject_overlap cs acc c hc hnc
    · rw [if_neg hover] at hnc ⊢
      rcases List.mem_cons.mp hc with rfl | hc
      · exact absurd (List.mem_cons_self _ _) hnc
      · have hnc' : c ∉ greedyAccept cs ((d.start, d.stop) :: acc) := fun hmem =>
          hnc (List.mem_cons_of_mem _ hmem)
        rcases greedyAccept_reject_overlap cs ((d.start, d.stop) :: acc) c hc hnc' with
          h | h
        · obtain ⟨r, hr, hro⟩ := h
          rcases List.mem_cons.mp hr with rfl | hr
          · exact Or.inr ⟨d, List.mem_cons_self _ _, hro⟩
          · exact Or.inl ⟨r, hr, hro⟩
        · obtain ⟨x, hx, hxo⟩ := h
          exact Or.inr ⟨x, List.mem_cons_of_mem _ hx, hxo⟩

theorem mem_insertRep {a x : Replacement} : ∀ {l : List Replacement},
    x ∈ insertRep a l ↔ x = a ∨ x ∈ l
  | [] => by simp [insertRep]
  | b :: l => by
    rw [insertRep]
    split
    · simp only [List.mem_cons, mem_insertRep (l := l)]
      tauto
    · simp only [List.mem_cons]

theorem mem_sortRepsDesc {x : Replacement} : ∀ {l : List Replacement},
    x ∈ sortRepsDesc l ↔ x ∈ l
  | [] => by simp [sortRepsDesc]
  | a :: l => by
    rw [sortRepsDesc, mem_insertRep, mem_sortRepsDesc (l := l), List.mem_cons]

/-- Every wrapper in the fragment-loop output either was already in the
accumulator or carries the prefixed tooltip and display text of one of the
replacements. -/
theorem wrapper_mem_fragLoop (orig : List Char) :
    ∀ (reps : List Replacement) (ci : Nat) (frag : List DomNode)
      (title kau : List Char),
      DomNode.wrapper title kau ∈ (fragLoop orig reps ci frag).1 →
      DomNode.wrapper title kau ∈ frag ∨
        ∃ r ∈ reps, title = wrapperTitle r.originalPrice ∧ kau = r.kauText
  | [], _, frag, title, kau => fun h => Or.inl h
  | r :: rest, ci, frag, title, kau => fun h => by
    rw [fragLoop] at h
    rcases wrapper_mem_fragLoop orig rest r.start _ title kau h with h1 | ⟨r', hr', ht, hk⟩
    · rcases List.mem_cons.mp h1 with heq | h2
      · injection heq with ht hk
        exact Or.inr ⟨r, List.mem_cons_self _ _, ht, hk⟩
      · refine Or.inl ?_
        by_cases hc1 : r.stop < ci
        · rw [if_pos hc1] at h2
          by_cases hc2 : extract orig r.stop ci ≠ []
          · rw [if_pos hc2] at h2
            rcases List.mem_cons.mp h2 with heq2 | h4
            · exact absurd heq2 (by simp)
            · exact h4
          · rw [if_neg hc2] at h2
            exact h2
        · rw [if_neg hc1] at h2
          exact h2
    · exact Or.inr ⟨r', List.mem_cons_of_mem _ hr', ht, hk⟩

/-- Every wrapper of the built fragment carries the prefixed tooltip of one of
the replacements. -/
theorem wrapper_mem_buildFragment {orig : List Char} {reps : List Replacement}
    {title kau : List Char}
    (h : DomNode.wrapper title kau ∈ buildFragment orig reps) :
    ∃ r ∈ reps, title = wrapperTitle r.originalPrice ∧ kau = r.kauText := by
  unfold buildFragment at h
  rcases hp : fragLoop orig (sortRepsDesc reps) orig.length [] with ⟨frag, ci⟩
  rw [hp] at h
  simp only at h
  have hfrag : DomNode.wrapper title kau ∈ frag := by
    by_cases hc1 : 0 < ci
    · rw [if_pos hc1] at h
      by_cases hc2 : extract orig 0 ci ≠ []
      · rw [if_pos hc2] at h
        rcases List.mem_cons.mp h with heq | h4
        · exact absurd heq (by simp)
        · exact h4
      · rw [if_neg hc2] at h
        exact h
    · rw [if_neg hc1] at h
      exact h
  have hfrag' : DomNode.wrapper title kau ∈ (fragLoop orig (sortRepsDesc reps) orig.length []).1 := by
    rw [hp]
    exact hfrag
  rcases wrapper_mem_fragLoop orig (sortRepsDesc reps) orig.length [] title kau hfrag' with
    h0 | ⟨r, hr, ht, hk⟩
  · exact absurd h0 (List.not_mem_nil _)
  · exact ⟨r, mem_sortRepsDesc.mp hr, ht, hk⟩

/-- Whether one API response passes the validation of `fetchGoldPrice`
(finite, positive, and inside the 1000-5000 per-ounce sanity band). -/
def apiUsable (r : Option ℚ) : Bool :=
  match r with
  | none => false
  | some p => !(p ≤ 0 || p < 1000 || 5000 < p)

theorem fetchGoldPrice_all_fail :
    ∀ rs : List (List Char × Option ℚ), (∀ e ∈ rs, apiUsable e.2 = false) →
      fetchGoldPrice rs = { price := 130, source := chars "fallback" }
  | [] => fun _ => rfl
  | (name, none) :: rest => fun h => by
    rw [fetchGoldPrice.eq_def]
    dsimp only
    exact fetchGoldPrice_all_fail rest fun e he => h e (List.mem_cons_of_mem _ he)
  | (name, some p) :: rest => fun h => by
    have hr : (!(decide (p ≤ 0) || decide (p < 1000) || decide (5000 < p))) = false :=
      h (name, some p) (List.mem_cons_self _ _)
    have hx : (decide (p ≤ 0) || decide (p < 1000) || decide (5000 < p)) = true := by
      revert hr
      cases decide (p ≤ 0) || decide (p < 1000) || decide (5000 < p) <;> simp
    rw [fetchGoldPrice.eq_def]
    dsimp only
    rw [if_pos hx]
    exact fetchGoldPrice_all_fail rest fun e he => h e (List.mem_cons_of_mem _ he)

/-- The exclusion screen of `processTextNode` (lines 162-171): a text matching
any exclusion pattern is skipped whole, left unmodified, and marked processed. -/
theorem processTextNode_excluded (kauPrice : Option ℚ) {t : List Char}
    (h : hasExclusionPattern t = true) :
    processTextNode kauPrice t = unchangedOutcome true := by
  unfold processTextNode
  rw [if_pos h]

/-- C1, counterexample: on the input `$300 million` the scanner produces no
Replacement at all, against the claim that it produces one spanning the whole
text with the amount multiplied by the scale word: the exclusion screen
matches this text, and independently the candidate collection over it is
empty (every price pattern's negative lookahead rejects `$300` before
` million`). -/
theorem c1_counterexample :
    hasExclusionPattern (chars "$300 million") = true ∧
    allCandidates (chars "$300 million") = [] ∧
    (processTextNode (some 130) (chars "$300 million")).replacements = [] :=
  ⟨by with_unfolding_all decide, by with_unfolding_all decide,
   by with_unfolding_all decide⟩

/-- C1, amended: for the input `$300 million` — a numeric amount followed by a
written scale word — the scanner produces no Replacement whatever the cached
rate: the written-amount exclusion patterns match, so the whole text node is
skipped unmodified and marked processed; the pipeline contains no scale-word
multiplication at all. -/
theorem c1_scale_word_skipped (kauPrice : Option ℚ) :
    processTextNode kauPrice (chars "$300 million") = unchangedOutcome true :=
  processTextNode_excluded kauPrice (by with_unfolding_all decide)

/-- C2, code bug: the hardcoded exclusion list is consulted only by the icon
and popup surfaces; the content-script pipeline never reads the hostname, so
on the hardcoded-excluded host `kinesis.money`, with a rate cached and the
extension enabled, scanning the text `$10` produces a Replacement — against
the claim (and the popup's own `Extension Not Needed` messaging) that such
pages never produce Replacements. -/
theorem c2_hardcoded_exclusion_ignored :
    isHardcodedExcluded (chars "kinesis.money") = true ∧
    (processPage (chars "kinesis.money") [] (some 130) true (chars "$10")).replacements =
      [{ originalPrice := chars "$10", kauText := chars "0.0769 KAU", start := 0, stop := 3 }] :=
  ⟨by with_unfolding_all decide, by with_unfolding_all decide⟩

/-- C3, counterexample: at text `$10` with rate 130 the single annotated
element's tooltip is `Original USD: $10`, not the original matched substring
`$10`: line 273 prepends a constant prefix, against the claim that the
tooltip equals exactly the original, unmodified. -/
theorem c3_counterexample :
    (processTextNode (some 130) (chars "$10")).replacements.map Replacement.originalPrice =
      [chars "$10"] ∧
    (processTextNode (some 130) (chars "$10")).createdNodes =
      [DomNode.wrapper (chars "Original USD: $10") (chars "0.0769 KAU")] ∧
    chars "Original USD: $10" ≠ chars "$10" :=
  ⟨by with_unfolding_all decide, by with_unfolding_all decide, by decide⟩

/-- C3, amended: every annotated element the rewriter creates carries as its
tooltip the constant prefix `Original USD: ` followed by the original matched
substring of one of the applied Replacements — the original is recoverable as
the suffix after the fixed prefix, not verbatim as the whole attribute. -/
theorem c3_tooltip_prefixed (orig : List Char) (reps : List Replacement)
    (title kau : List Char)
    (h : DomNode.wrapper title kau ∈ buildFragment orig reps) :
    ∃ r ∈ reps, title = chars "Original USD: " ++ r.originalPrice ∧
      kau = r.kauText :=
  wrapper_mem_buildFragment h

theorem c3_witness :
    ∃ r ∈ priceReplacements (some 130) (chars "$10"),
      chars "Original USD: $10" = chars "Original USD: " ++ r.originalPrice ∧
      chars "0.0769 KAU" = r.kauText :=
  c3_tooltip_prefixed (chars "$10") (priceReplacements (some 130) (chars "$10"))
    (chars "Original USD: $10") (chars "0.0769 KAU") (by with_unfolding_all decide)

/-- C4, code bug: against the claim (and the source's own comment `Mark all
new elements as processed`, line 295), no newly created node joins the
processed set: `replaceChild` (line 293) empties the fragment before
`querySelectorAll` (line 296) runs over it, so the marking loop visits
nothing. Evaluated at the failing input `$10` with rate 130, where a wrapper
is created; the post-rewrite marking set is in fact empty for every input. -/
theorem c4_new_nodes_never_marked :
    (processTextNode (some 130) (chars "$10")).createdNodes ≠ [] ∧
    (processTextNode (some 130) (chars "$10")).newMarked = [] ∧
    ∀ (kauPrice : Option ℚ) (t : List Char),
      (processTextNode kauPrice t).newMarked = [] := by
  refine ⟨by with_unfolding_all decide, by with_unfolding_all decide, ?_⟩
  intro kauPrice t
  unfold processTextNode
  split
  · rfl
  · split
    · rfl
    · rfl

/-- C5, confirmed: over every text and every rate, the resolver keeps only
candidates with a positive parsed amount, sorts them by start offset with
ties to the larger end offset, greedily accepts a candidate exactly when it
overlaps no already-accepted span, and the applied Replacements are pairwise
non-overlapping with each half-open span inside the original string bounds. -/
theorem c5_overlap_resolver (t : List Char) (kauPrice : Option ℚ) :
    ((priceReplacements kauPrice t).Pairwise fun a b =>
      a.stop ≤ b.start ∨ b.stop ≤ a.start) ∧
    (∀ r ∈ priceReplacements kauPrice t, r.start < r.stop ∧ r.stop ≤ t.length) ∧
    (∀ c ∈ allCandidates t, 0 < c.usdAmount) ∧
    ((sortCands (allCandidates t)).Pairwise candLe) ∧
    ((acceptedCands t).Sublist (sortCands (allCandidates t))) ∧
    (∀ c ∈ sortCands (allCandidates t), c ∉ acceptedCands t →
      ∃ x ∈ acceptedCands t, spansOverlap c.start c.stop (x.start, x.stop) = true) := by
  refine ⟨?_, ?_, ?_, pairwise_sortCands _, greedyAccept_sublist _ _, ?_⟩
  · unfold priceReplacements
    refine List.Pairwise.map _ ?_ (greedyAccept_pairwise _ _)
    intro a b hab
    exact hab
  · intro r hr
    unfold priceReplacements at hr
    rw [List.mem_map] at hr
    obtain ⟨c, hc, rfl⟩ := hr
    have hc2 : c ∈ allCandidates t :=
      mem_sortCands.mp ((greedyAccept_sublist _ _).subset hc)
    have hb := mem_allCandidates hc2
    exact ⟨hb.2.1, hb.2.2⟩
  · intro c hc
    exact (mem_allCandidates hc).1
  · intro c hc hnc
    rcases greedyAccept_reject_overlap _ [] c hc hnc with h | h
    · obtain ⟨r, hr, _⟩ := h
      exact absurd hr (List.not_mem_nil r)
    · exact h

theorem c5_witness :
    (({ originalPrice := chars "$1,234.56", kauText := chars "9.50 KAU", start := 0, stop := 9 } : Replacement).start <
        ({ originalPrice := chars "$1,234.56", kauText := chars "9.50 KAU", start := 0, stop := 9 } : Replacement).stop ∧
      ({ originalPrice := chars "$1,234.56", kauText := chars "9.50 KAU", start := 0, stop := 9 } : Replacement).stop ≤
        (chars "$1,234.56 or USD 99 and 7 dollars").length) ∧
    0 < ({ usdAmount := 99, originalPrice := chars "USD 99", start := 13, stop := 19 } : Candidate).usdAmount ∧
    ∃ x ∈ acceptedCands (chars "$1,234.56 or USD 99 and 7 dollars"),
      spansOverlap ({ usdAmount := 1, originalPrice := chars "$1", start := 0, stop := 2 } : Candidate).start
        ({ usdAmount := 1, originalPrice := chars "$1", start := 0, stop := 2 } : Candidate).stop
        (x.start, x.stop) = true :=
  ⟨(c5_overlap_resolver (chars "$1,234.56 or USD 99 and 7 dollars") (some 130)).2.1
      _ (by with_unfolding_all decide),
   (c5_overlap_resolver (chars "$1,234.56 or USD 99 and 7 dollars") (some 130)).2.2.1
      _ (by with_unfolding_all decide),
   (c5_overlap_resolver (chars "$1,234.56 or USD 99 and 7 dollars") (some 130)).2.2.2.2.2
      _ (by with_unfolding_all decide) (by with_unfolding_all decide)⟩

/-- C6, counterexample: converting 1.00 at rate 2000 gives 0.0005, which is
below the 10⁻² milli-scale bound, so the formatter emits the milli band
`0.50 mKAU` — not the claimed sub-unit band 4-decimal display `0.0005` with
the base unit label. -/
theorem c6_counterexample :
    convertToKAU (some 2000) 1 = 1 / 2000 ∧
    formatKAUAmount (convertToKAU (some 2000) 1) = chars "0.50 mKAU" ∧
    formatKAUAmount (convertToKAU (some 2000) 1) ≠ chars "0.0005 KAU" :=
  ⟨by with_unfolding_all decide, by with_unfolding_all decide,
   by with_unfolding_all decide⟩

/-- C6, amended: the formatter selects exactly one of the five fixed bands by
magnitude — micro below 10⁻⁴ as a rounded integer count of millionths, milli
below 10⁻² as two decimals of thousandths, sub-unit below 1 as four decimals,
standard below 1000 as two decimals, large at or above 1000 with grouping
separators — but converting 1.00 at rate 2000 lands in the milli band with
display `0.50 mKAU` (0.0005 is below the sub-unit band's lower bound), while
50000 at rate 2000 yields the standard band display `25.00 KAU` as claimed. -/
theorem c6_magnitude_bands (k : ℚ) :
    (k < 1 / 10000 →
      formatKAUAmount k = intToChars (jsRound (k * 1000000)) ++ chars " Î¼KAU") ∧
    (1 / 10000 ≤ k → k < 1 / 100 →
      formatKAUAmount k = toFixedChars (k * 1000) 2 ++ chars " mKAU") ∧
    (1 / 100 ≤ k → k < 1 →
      formatKAUAmount k = toFixedChars k 4 ++ chars " KAU") ∧
    (1 ≤ k → k < 1000 →
      formatKAUAmount k = toFixedChars k 2 ++ chars " KAU") ∧
    (1000 ≤ k → formatKAUAmount k = toLocale2Chars k ++ chars " KAU") ∧
    formatKAUAmount (convertToKAU (some 2000) 1) = chars "0.50 mKAU" ∧
    formatKAUAmount (convertToKAU (some 2000) 50000) = chars "25.00 KAU" := by
  refine ⟨?_, ?_, ?_, ?_, ?_, by with_unfolding_all decide,
    by with_unfolding_all decide⟩
  · intro h1
    unfold formatKAUAmount
    rw [if_pos h1]
  · intro h1 h2
    unfold formatKAUAmount
    rw [if_neg (not_lt.mpr h1), if_pos h2]
  · intro h1 h2
    unfold formatKAUAmount
    rw [if_neg (not_lt.mpr (le_trans (by norm_num) h1)),
      if_neg (not_lt.mpr h1), if_pos h2]
  · intro h1 h2
    unfold formatKAUAmount
    rw [if_neg (not_lt.mpr (le_trans (by norm_num) h1)),
      if_neg (not_lt.mpr (le_trans (by norm_num) h1)),
      if_neg (not_lt.mpr h1), if_pos h2]
  · intro h1
    unfold formatKAUAmount
    rw [if_neg (not_lt.mpr (le_trans (by norm_num) h1)),
      if_neg (not_lt.mpr (le_trans (by norm_num) h1)),
      if_neg (not_lt.mpr (le_trans (by norm_num) h1)),
      if_neg (not_lt.mpr h1)]

theorem c6_witness :
    formatKAUAmount (1 / 20000) =
      intToChars (jsRound ((1 : ℚ) / 20000 * 1000000)) ++ chars " Î¼KAU" ∧
    formatKAUAmount (1 / 2000) =
      toFixedChars ((1 : ℚ) / 2000 * 1000) 2 ++ chars " mKAU" ∧
    formatKAUAmount (1 / 10) = toFixedChars (1 / 10) 4 ++ chars " KAU" ∧
    formatKAUAmount 25 = toFixedChars 25 2 ++ chars " KAU" ∧
    formatKAUAmount 2500 = toLocale2Chars 2500 ++ chars " KAU" :=
  ⟨(c6_magnitude_bands (1 / 20000)).1 (by norm_num),
   (c6_magnitude_bands (1 / 2000)).2.1 (by norm_num) (by norm_num),
   (c6_magnitude_bands (1 / 10)).2.2.1 (by norm_num) (by norm_num),
   (c6_magnitude_bands 25).2.2.2.1 (by norm_num) (by norm_num),
   (c6_magnitude_bands 2500).2.2.2.2.1 (by norm_num)⟩

/-- C7, counterexample: when every API source fails, the background does not
leave the rate absent — it stores the invented fallback rate of 130 per gram
with source `fallback` (background.js lines 83-96), and the pipeline then
shows conversions at that rate, so the degraded state is `conversions shown at
a placeholder rate`, not `no conversions shown`. -/
theorem c7_counterexample :
    fetchGoldPrice
        [(chars "gold-api.com", none), (chars "goldapi.io", none),
          (chars "api.goldapi.io", none)] =
      { price := 130, source := chars "fallback" } ∧
    (processPage (chars "example.com") [] (some 130) true (chars "$10")).replacements ≠ [] :=
  ⟨by with_unfolding_all decide, by with_unfolding_all decide⟩

/-- C7, amended: when no usable rate is obtained from any source the
background substitutes the hardcoded fallback of 130 per gram (source
`fallback`), and conversions are then shown at that invented rate; the
`no conversions shown` degraded state occurs only when the content script
holds no rate at all. -/
theorem c7_fallback_substituted :
    (∀ rs : List (List Char × Option ℚ), (∀ e ∈ rs, apiUsable e.2 = false) →
      fetchGoldPrice rs = { price := 130, source := chars "fallback" }) ∧
    (∀ (hostname : List Char) (userExcludedUrls : List (List Char))
      (enabled : Bool) (t : List Char),
      (processPage hostname userExcludedUrls none enabled t).replacements = []) :=
  ⟨fetchGoldPrice_all_fail, fun _ _ _ _ => rfl⟩

theorem c7_witness :
    fetchGoldPrice
        [(chars "gold-api.com", none), (chars "goldapi.io", none),
          (chars "api.goldapi.io", none)] =
      { price := 130, source := chars "fallback" } :=
  c7_fallback_substituted.1 _ (by decide)

/-- C8, confirmed: with no rate cached the page guard returns before any node
is touched, for every hostname, user exclusion list, enabled flag, and text:
zero Replacements and all text left unchanged. -/
theorem c8_null_rate_passthrough (hostname : List Char)
    (userExcludedUrls : List (List Char)) (enabled : Bool) (t : List Char) :
    processPage hostname userExcludedUrls none enabled t = unchangedOutcome false ∧
    (processPage hostname userExcludedUrls none enabled t).replacements = [] ∧
    (processPage hostname userExcludedUrls none enabled t).textUnchanged = true :=
  ⟨rfl, rfl, rfl⟩

/-- C9, counterexample: `1.2.3` is not a valid non-negative decimal, yet
`parseUSDAmount` returns 1.2 rather than the claimed zero — `parseFloat`
takes the longest valid numeric prefix instead of rejecting invalid input. -/
theorem c9_counterexample :
    specValidNonnegDecimal (chars "1.2.3") = false ∧
    parseUSDAmount (chars "1.2.3") = 6 / 5 ∧
    (6 : ℚ) / 5 ≠ 0 :=
  ⟨by decide, by with_unfolding_all decide, by norm_num⟩

/-- C9, amended: `parseUSDAmount` is pure and total, strips grouping commas
(it is invariant under comma removal), returns zero when `parseFloat` yields
NaN, when the parsed value is below 0.01, and when it exceeds 10¹⁵ — but an
input that is not a valid decimal yet begins with a valid numeric prefix
parses as that prefix rather than being rejected; every accepted result is
finite, at least 0.01 and at most 10¹⁵. -/
theorem c9_parse_bounds (s : List Char) :
    (parseUSDAmount s = 0 ∨
      (1 / 100 ≤ parseUSDAmount s ∧ parseUSDAmount s ≤ 10 ^ 15)) ∧
    parseUSDAmount (s.filter fun c => c ≠ ',') = parseUSDAmount s ∧
    (parsedValue s = JsNum.nan → parseUSDAmount s = 0) ∧
    (∀ a : ℚ, parsedValue s = JsNum.fin a → a < 1 / 100 →
      parseUSDAmount s = 0) ∧
    (isFin (parsedValue s) = true → 10 ^ 15 < finValue (parsedValue s) →
      parseUSDAmount s = 0) := by
  refine ⟨parseUSDAmount_range s, parseUSDAmount_comma_stripped s, ?_, ?_, ?_⟩
  · intro h
    unfold parseUSDAmount
    rw [h]
  · intro a h ha
    unfold parseUSDAmount
    rw [h]
    simp only
    rw [if_pos ha]
  · intro hf ha
    rcases hv : parsedValue s with _ | neg | a
    · exact absurd (hv ▸ hf) (by simp [isFin])
    · exact absurd (hv ▸ hf) (by simp [isFin])
    · have ha' : 10 ^ 15 < a := by
        rw [hv] at ha
        simpa [finValue] using ha
      unfold parseUSDAmount
      rw [hv]
      simp only
      by_cases hlo : a < 1 / 100
      · rw [if_pos hlo]
      · rw [if_neg hlo, if_pos ha']

theorem c9_witness :
    parseUSDAmount (chars "abc") = 0 ∧
    parseUSDAmount (chars "0.005") = 0 ∧
    parseUSDAmount (chars "9000000000000000") = 0 :=
  ⟨(c9_parse_bounds (chars "abc")).2.2.1 (by with_unfolding_all decide),
   (c9_parse_bounds (chars "0.005")).2.2.2.1 (1 / 200)
     (by with_unfolding_all decide) (by norm_num),
   (c9_parse_bounds (chars "9000000000000000")).2.2.2.2
     (by with_unfolding_all decide) (by with_unfolding_all decide)⟩

theorem any_imp_findSome? {α β : Type} {P : α → Bool} {Q : α → Option β}
    (hpq : ∀ w, P w = true → (Q w).isSome = true) :
    ∀ (ws : List α), ws.any P = true → (ws.findSome? Q).isSome = true
  | [], h => by simp at h
  | a :: as, h => by
    rw [List.any_cons, Bool.or_eq_true] at h
    cases hq : Q a with
    | some b => simp [List.findSome?, hq]
    | none =>
      rcases h with h | h
      · have hh := hpq a h
        rw [hq] at hh
        cases hh
      · have hrec := any_imp_findSome? hpq as h
        simpa [List.findSome?, hq] using hrec

/-- A Boolean exclusion-body match always has a length. -/
theorem exclTail_isSome {words : List (List Char)} {dollarsTail : Bool}
    {l : List Char} (h : exclTail words dollarsTail l = true) :
    (exclTailLen words dollarsTail l).isSome = true := by
  unfold exclTail at h
  unfold exclTailLen
  by_cases hd : digitRun l = 0
  · rw [if_pos hd] at h
    cases h
  · rw [if_neg hd] at h
    rw [if_neg hd]
    dsimp only at h ⊢
    refine any_imp_findSome? ?_ words h
    intro w hw
    rw [Bool.and_eq_true] at hw
    obtain ⟨h1, h2⟩ := hw
    rw [if_pos h1]
    cases dollarsTail with
    | false =>
      rw [if_neg Bool.false_ne_true] at h2
      rw [if_neg Bool.false_ne_true]
      rw [if_pos h2]
      rfl
    | true =>
      rw [if_pos rfl] at h2
      rw [if_pos rfl]
      split_ifs with hds
      · rfl
      · rfl

theorem exclPattern1_isSome {l : List Char} (h : exclPattern1 l = true) :
    (exclPattern1Len l).isSome = true := by
  cases l with
  | nil =>
    rw [exclPattern1] at h
    cases h
  | cons c rest =>
    rw [exclPattern1] at h
    rw [exclPattern1Len]
    rw [Bool.and_eq_true] at h
    obtain ⟨h1, h2⟩ := h
    rw [if_pos (of_decide_eq_true h1)]
    have hs := exclTail_isSome h2
    rcases hx : exclTailLen scaleWords false (rest.drop (wsRun rest)) with _ | n
    · rw [hx] at hs
      cases hs
    · rfl

theorem exclPattern2_isSome {l : List Char} (h : exclPattern2 l = true) :
    (exclPattern2Len l).isSome = true := by
  rw [exclPattern2, Bool.and_eq_true] at h
  obtain ⟨h1, h2⟩ := h
  rw [exclPattern2Len, if_pos h1]
  have hs := exclTail_isSome h2
  rcases hx : exclTailLen scaleWords false ((l.drop 3).drop (wsRun (l.drop 3))) with _ | n
  · rw [hx] at hs
    cases hs
  · rfl

theorem exclPattern3_isSome {l : List Char} (h : exclPattern3 l = true) :
    (exclPattern3Len l).isSome = true := by
  rw [exclPattern3] at h
  rw [exclPattern3Len]
  exact exclTail_isSome h

theorem exclPattern4_isSome {l : List Char} (h : exclPattern4 l = true) :
    (exclPattern4Len l).isSome = true := by
  cases l with
  | nil =>
    rw [exclPattern4] at h
    cases h
  | cons c rest =>
    rw [exclPattern4] at h
    rw [exclPattern4Len]
    rw [Bool.and_eq_true] at h
    obtain ⟨h1, h2⟩ := h
    rw [if_pos (of_decide_eq_true h1)]
    have hs := exclTail_isSome h2
    rcases hx : exclTailLen kmbtWords false (rest.drop (wsRun rest)) with _ | n
    · rw [hx] at hs
      cases hs
    · rfl

theorem exclPattern5_isSome {l : List Char} (h : exclPattern5 l = true) :
    (exclPattern5Len l).isSome = true := by
  rw [exclPattern5, Bool.and_eq_true] at h
  obtain ⟨h1, h2⟩ := h
  rw [exclPattern5Len, if_pos h1]
  have hs := exclTail_isSome h2
  rcases hx : exclTailLen kmbtWords false ((l.drop 3).drop (wsRun (l.drop 3))) with _ | n
  · rw [hx] at hs
    cases hs
  · rfl

theorem testAnywhere_scanFrom {mb : List Char → Bool} {m : List Char → Option Nat}
    (hm : ∀ l, mb l = true → (m l).isSome = true) :
    ∀ (fuel i : Nat) (l : List Char), l.length < fuel →
      testAnywhere mb l = true → (scanFrom m fuel i l).isSome = true
  | 0, _, l, hf, _ => absurd hf (by omega)
  | fuel + 1, i, l, hf, h => by
    rw [scanFrom]
    rcases hml : m l with _ | len
    · dsimp only
      cases l with
      | nil =>
        rw [testAnywhere] at h
        have hsome := hm [] h
        rw [hml] at hsome
        cases hsome
      | cons c rest =>
        have hrest : testAnywhere mb rest = true := by
          rw [testAnywhere, Bool.or_eq_true] at h
          rcases h with h1 | h1
          · have hsome := hm _ h1
            rw [hml] at hsome
            cases hsome
          · exact h1
        rw [if_neg (by simp : ¬((c :: rest).isEmpty = true))]
        simp only [List.length_cons] at hf
        exact testAnywhere_scanFrom hm fuel (i + 1) rest (by omega) hrest
    · rfl

/-- A fresh-state `testG` fires wherever the fresh-scan Boolean test does. -/
theorem testG_zero_of_testAnywhere {mb : List Char → Bool}
    {m : List Char → Option Nat} (hm : ∀ l, mb l = true → (m l).isSome = true)
    {t : List Char} (h : testAnywhere mb t = true) :
    (testG m 0 t).1 = true := by
  unfold testG
  rw [if_neg (by omega : ¬t.length < 0)]
  simp only [List.drop_zero]
  have hs := testAnywhere_scanFrom hm (t.length + 1) 0 t (by omega) h
  rcases hx : scanFrom m (t.length + 1) 0 t with _ | e
  · rw [hx] at hs
    cases hs
  · rfl

/-- Any of the five stateful pattern tests firing makes the screen fire. -/
theorem hasExclusionPatternS_eq_true {st : ExclState} {t : List Char}
    (h : (testG exclPattern1Len st.i1 t).1 = true ∨
      (testG exclPattern2Len st.i2 t).1 = true ∨
      (testG exclPattern3Len st.i3 t).1 = true ∨
      (testG exclPattern4Len st.i4 t).1 = true ∨
      (testG exclPattern5Len st.i5 t).1 = true) :
    (hasExclusionPatternS st t).1 = true := by
  unfold hasExclusionPatternS
  rcases h1 : testG exclPattern1Len st.i1 t with ⟨b1, n1⟩
  rw [h1] at h
  cases b1 with
  | true => rfl
  | false =>
    dsimp only
    rcases h with h0 | h
    · simp at h0
    rcases h2 : testG exclPattern2Len st.i2 t with ⟨b2, n2⟩
    rw [h2] at h
    cases b2 with
    | true => rfl
    | false =>
      dsimp only
      rcases h with h0 | h
      · simp at h0
      rcases h3 : testG exclPattern3Len st.i3 t with ⟨b3, n3⟩
      rw [h3] at h
      cases b3 with
      | true => rfl
      | false =>
        dsimp only
        rcases h with h0 | h
        · simp at h0
        rcases h4 : testG exclPattern4Len st.i4 t with ⟨b4, n4⟩
        rw [h4] at h
        cases b4 with
        | true => rfl
        | false =>
          dsimp only
          rcases h with h0 | h
          · simp at h0
          rcases h5 : testG exclPattern5Len st.i5 t with ⟨b5, n5⟩
          rw [h5] at h
          cases b5 with
          | true => rfl
          | false => simp at h

/-- On fresh state the stateful screen fires on every text the fresh-scan
Boolean screen matches. -/
theorem hasExclusionPatternS_fresh {t : List Char}
    (h : hasExclusionPattern t = true) :
    (hasExclusionPatternS freshExclState t).1 = true := by
  apply hasExclusionPatternS_eq_true
  unfold hasExclusionPattern at h
  rw [List.any_eq_true] at h
  obtain ⟨mb, hmem, ht⟩ := h
  simp only [List.mem_cons, List.not_mem_nil, or_false] at hmem
  rcases hmem with rfl | rfl | rfl | rfl | rfl
  · exact Or.inl (testG_zero_of_testAnywhere (fun l hl => exclPattern1_isSome hl) ht)
  · exact Or.inr (Or.inl
      (testG_zero_of_testAnywhere (fun l hl => exclPattern2_isSome hl) ht))
  · exact Or.inr (Or.inr (Or.inl
      (testG_zero_of_testAnywhere (fun l hl => exclPattern3_isSome hl) ht)))
  · exact Or.inr (Or.inr (Or.inr (Or.inl
      (testG_zero_of_testAnywhere (fun l hl => exclPattern4_isSome hl) ht))))
  · exact Or.inr (Or.inr (Or.inr (Or.inr
      (testG_zero_of_testAnywhere (fun l hl => exclPattern5_isSome hl) ht))))

/-- C10, counterexample: the text `Pay $10 for 5 million units` contains
`5 million` — a number followed by a scale word, without a currency marker —
yet even from fresh regex state the exclusion screen does not fire (all five
exclusion patterns require a `$` or `USD` prefix or a `dollar(s)` suffix),
the plain `$10` elsewhere in the same string is converted and the node is
rewritten. -/
theorem c10_counterexample :
    specContainsWrittenAmount (chars "Pay $10 for 5 million units") = true ∧
    (hasExclusionPatternS freshExclState (chars "Pay $10 for 5 million units")).1 = false ∧
    (processTextNodeS freshExclState (some 130) (chars "Pay $10 for 5 million units")).1.replacements =
      [{ originalPrice := chars "$10", kauText := chars "0.0769 KAU", start := 4, stop := 7 }] ∧
    (processTextNodeS freshExclState (some 130) (chars "Pay $10 for 5 million units")).1.textUnchanged = false :=
  ⟨by with_unfolding_all decide, by with_unfolding_all decide,
   by with_unfolding_all decide, by with_unfolding_all decide⟩

/-- C10, amended: the exclusion screen runs five persistent `g`-flag regexes,
so its guarantee is per-scan, not per-text. (i) Whenever the stateful screen
fires — from whatever carried `lastIndex` state — the node is skipped whole:
zero Replacements, text unmodified, marked processed. (ii) From fresh state
(every `lastIndex` 0, as on the first node a converter screens) the screen
fires on every text matching one of the five exclusion patterns, all of
which require a currency marker; a written amount without one never triggers
the skip (counterexample). (iii) The skip does not extend to every text
matching an exclusion pattern: the `lastIndex` left behind by an excluded
node carries over, so after skipping `$5 million` the next node
`$3 million and $7` passes the screen and its plain `$7` is converted — even
though that text matches exclusion pattern 1 on a fresh scan. -/
theorem c10_stateful_exclusion :
    (∀ (st : ExclState) (kauPrice : Option ℚ) (t : List Char),
      (hasExclusionPatternS st t).1 = true →
      (processTextNodeS st kauPrice t).1 = unchangedOutcome true) ∧
    (∀ t : List Char, hasExclusionPattern t = true →
      (hasExclusionPatternS freshExclState t).1 = true) ∧
    ((processTextNodesS (some 130) freshExclState
        [chars "$5 million", chars "$3 million and $7"]).1.map
        (fun o => o.replacements) =
      [[], [{ originalPrice := chars "$7", kauText := chars "0.0538 KAU",
              start := 15, stop := 17 }]]) ∧
    ((processTextNodesS (some 130) freshExclState
        [chars "$5 million", chars "$3 million and $7"]).1.map
        (fun o => o.textUnchanged) = [true, false]) ∧
    hasExclusionPattern (chars "$3 million and $7") = true := by
  refine ⟨?_, ?_, ?_, ?_, ?_⟩
  · intro st kauPrice t h
    unfold processTextNodeS
    rcases hs : hasExclusionPatternS st t with ⟨b, st1⟩
    rw [hs] at h
    cases b with
    | false => simp at h
    | true => rfl
  · exact fun t h => hasExclusionPatternS_fresh h
  · with_unfolding_all decide
  · with_unfolding_all decide
  · with_unfolding_all decide

theorem c10_witness :
    (processTextNodeS freshExclState (some 130) (chars "USD 2 billion")).1 =
      unchangedOutcome true ∧
    (hasExclusionPatternS freshExclState (chars "USD 2 billion")).1 = true :=
  ⟨c10_stateful_exclusion.1 freshExclState (some 130) (chars "USD 2 billion")
    (c10_stateful_exclusion.2.1 (chars "USD 2 billion") (by with_unfolding_all decide)),
   c10_stateful_exclusion.2.1 (chars "USD 2 billion") (by with_unfolding_all decide)⟩

end PricedInGold
